import Mathlib

/-
Shallow embedding of the hash-collision puzzle generator (src/app.py).

Modelling conventions:
* Python lists of table slots become `List (Option Nat)` (array techniques)
  or `List (List Nat)` (chaining); `table[h]` with an in-range index is
  modelled by `tget`, which reads with default `none`.
* The step dictionaries become the inductive `StepRec` (one constructor per
  dictionary shape appearing in the code: probing step, chaining step,
  error step).
* `random.randint(lo, hi)` is modelled by `randint lo hi g c`, which draws
  the `c`-th value of an arbitrary stream `g : Nat → Nat` and maps it into
  `[lo, hi]`; every realizable sequence of in-range draws corresponds to
  some stream.  `random.shuffle` is modelled by an arbitrary function
  parameter `shuffle`; theorems about it assume only that it permutes its
  input, which is the sole property the library call guarantees.
* Bounded `for`/`while` loops become structural recursion on explicit
  fuel, so every definition evaluates by kernel reduction.
-/

/-- One step dictionary of the trace. `probe` covers the records emitted by
the three open-addressing resolvers (`h2_value` is `none` except for double
hashing), `chain` the records of the chaining resolver, and `err` the
error records `{"key": ..., "error": ...}`. -/
inductive StepRec where
  | probe (key : Nat) (initial_hash : Nat) (h2_value : Option Nat)
      (probe_sequence : List Nat) (final_index : Nat) (collisions : Nat)
      (formula : String)
  | chain (key : Nat) (initial_hash : Nat) (final_index : Nat)
      (chain_length : Nat) (formula : String)
  | err (key : Nat) (error : String)
deriving DecidableEq

/-- The `solution` field: a flat slot array for open addressing, buckets for
chaining. -/
inductive Solution where
  | flat (table : List (Option Nat))
  | buckets (b : List (List Nat))
deriving DecidableEq

/-- The puzzle dictionary returned by each builder. -/
structure PuzzleResult where
  technique : String
  technique_label : String
  table_size : Nat
  keys : List Nat
  solution : Solution
  steps : List StepRec
  description : String
  formula_label : String
deriving DecidableEq

/-- Reading a slot of an array-based table (`table[h]` in Python; all reads
in the code use an index below the table length). -/
def tget (t : List (Option Nat)) (i : Nat) : Option Nat :=
  t.getD i none

/-- Model of `random.randint(lo, hi)` on the draw stream `g` at counter `c`:
an arbitrary value of `[lo, hi]` (for `lo ≤ hi`). -/
def randint (lo hi : Nat) (g : Nat → Nat) (c : Nat) : Nat :=
  lo + g c % (hi + 1 - lo)

/-- Hint string of `build_linear_probing` (the f-strings of the code). -/
def lpHint (key m h0 probe : Nat) : String :=
  if probe = 0 then
    "h(" ++ toString key ++ ") = " ++ toString key ++ " mod " ++ toString m ++ " = ?"
  else
    "h(" ++ toString key ++ ") = " ++ toString key ++ " mod " ++ toString m ++
      " = " ++ toString h0 ++ " → collision(s), probe i=1.." ++ toString probe

/-- Hint string of `build_quadratic_probing`. -/
def qpHint (key m h0 i : Nat) : String :=
  if i = 0 then
    "h(" ++ toString key ++ ") = " ++ toString key ++ " mod " ++ toString m ++ " = ?"
  else
    String.intercalate (" | ") ((List.range (i + 1)).map (fun p =>
      "i=" ++ toString p ++ ": (" ++ toString h0 ++ " + " ++ toString p ++
        "²) mod " ++ toString m ++ " = ?"))

/-- Hint string of `build_double_hashing`. -/
def dhHint (key m step2 h0 i : Nat) : String :=
  if i = 0 then
    "h1(" ++ toString key ++ ") = " ++ toString key ++ " mod " ++ toString m ++
      " = ? | h2(" ++ toString key ++ ") = 1 + (" ++ toString key ++ " mod " ++
      toString (m - 1) ++ ") = ?"
  else
    "h1(" ++ toString key ++ ") = " ++ toString key ++ " mod " ++ toString m ++
      " = " ++ toString h0 ++ " | h2(" ++ toString key ++ ") = 1 + (" ++
      toString key ++ " mod " ++ toString (m - 1) ++ ") = " ++ toString step2 ++
      " | collision(s) → i=" ++ toString i ++ ": (" ++ toString h0 ++ " + " ++
      toString i ++ "×" ++ toString step2 ++ ") mod " ++ toString m ++ " = ?"

/-- The probe loop `for i in range(m): h = (h0 + off i) % m; if table[h] is
None: ...` shared by the three open-addressing builders, with the remaining
iteration count as explicit fuel.  Returns the probe counter `i` of the
first empty slot, or `none` when the fuel (initially `m`) runs out. -/
def probeFindAux (m : Nat) (table : List (Option Nat)) (off : Nat → Nat)
    (h0 : Nat) : Nat → Nat → Option Nat
  | _, 0 => none
  | i, fuel + 1 =>
    if tget table ((h0 + off i) % m) = none then some i
    else probeFindAux m table off h0 (i + 1) fuel

/-- Probe loop started at `i = 0` with `m` attempts, as in the code. -/
def probeFind (m : Nat) (table : List (Option Nat)) (off : Nat → Nat)
    (h0 : Nat) : Option Nat :=
  probeFindAux m table off h0 0 m

/-- One key insertion of an open-addressing builder: probe with offsets
`off`, place the key in the first empty slot and emit the probe record, or
emit the error record `errMsg` after `m` failed attempts. -/
def probeInsert (m : Nat) (off : Nat → Nat) (h2v : Option Nat)
    (errMsg : String) (hint : Nat → Nat → String)
    (table : List (Option Nat)) (key : Nat) : List (Option Nat) × StepRec :=
  let h0 := key % m
  match probeFind m table off h0 with
  | some p =>
      (table.set ((h0 + off p) % m) (some key),
        StepRec.probe key h0 h2v
          ((List.range (p + 1)).map (fun i => (h0 + off i) % m))
          ((h0 + off p) % m) p (hint h0 p))
  | none => (table, StepRec.err key errMsg)

/-- One insertion of `build_linear_probing`: offsets `0, 1, 2, ...`. -/
def lpInsert (m : Nat) (table : List (Option Nat)) (key : Nat) :
    List (Option Nat) × StepRec :=
  probeInsert m (fun i => i) none ("Table full")
    (fun h0 p => lpHint key m h0 p) table key

/-- One insertion of `build_quadratic_probing`: offsets `i²`. -/
def qpInsert (m : Nat) (table : List (Option Nat)) (key : Nat) :
    List (Option Nat) × StepRec :=
  probeInsert m (fun i => i * i) none
    ("No slot found (quadratic probing exhausted)")
    (fun h0 p => qpHint key m h0 p) table key

/-- One insertion of `build_double_hashing`: offsets `i * h2(key)` with
`h2(k) = 1 + (k mod (m - 1))`. -/
def dhInsert (m : Nat) (table : List (Option Nat)) (key : Nat) :
    List (Option Nat) × StepRec :=
  probeInsert m (fun i => i * (1 + key % (m - 1))) (some (1 + key % (m - 1)))
    ("Table full") (fun h0 i => dhHint key m (1 + key % (m - 1)) h0 i) table key

/-- The `for key in keys` driver loop shared by the open-addressing
builders: thread the table through `ins`, collecting one step per key. -/
def runInserts (ins : List (Option Nat) → Nat → List (Option Nat) × StepRec) :
    List (Option Nat) → List Nat → List (Option Nat) × List StepRec
  | table, [] => (table, [])
  | table, k :: ks =>
      let p := ins table k
      let rest := runInserts ins p.1 ks
      (rest.1, p.2 :: rest.2)

/-- Embedding of `build_linear_probing(keys, table_size)`. -/
def build_linear_probing (keys : List Nat) (table_size : Nat) : PuzzleResult :=
  let r := runInserts (lpInsert table_size) (List.replicate table_size none) keys
  { technique := "linear_probing"
    technique_label := "Linear Probing"
    table_size := table_size
    keys := keys
    solution := Solution.flat r.1
    steps := r.2
    description := "On collision, probe next slot: h(k, i) = (h(k) + i) mod m"
    formula_label := "h(k, i) = (k mod m + i) mod m" }

/-- Embedding of `build_quadratic_probing(keys, table_size)`. -/
def build_quadratic_probing (keys : List Nat) (table_size : Nat) : PuzzleResult :=
  let r := runInserts (qpInsert table_size) (List.replicate table_size none) keys
  { technique := "quadratic_probing"
    technique_label := "Quadratic Probing"
    table_size := table_size
    keys := keys
    solution := Solution.flat r.1
    steps := r.2
    description := "On collision, probe with quadratic increments: h(k, i) = (h(k) + i²) mod m"
    formula_label := "h(k, i) = (k mod m + i²) mod m" }

/-- Embedding of `build_double_hashing(keys, table_size)`. -/
def build_double_hashing (keys : List Nat) (table_size : Nat) : PuzzleResult :=
  let r := runInserts (dhInsert table_size) (List.replicate table_size none) keys
  { technique := "double_hashing"
    technique_label := "Double Hashing"
    table_size := table_size
    keys := keys
    solution := Solution.flat r.1
    steps := r.2
    description := "On collision, use second hash function: h(k,i) = (h1(k) + i·h2(k)) mod m"
    formula_label := "h(k,i) = (k mod m + i·(1 + k mod (m-1))) mod m" }

/-- One insertion of `build_chaining`: append to the bucket `key % m` and
record the chain length after insertion. -/
def chInsert (m : Nat) (table : List (List Nat)) (key : Nat) :
    List (List Nat) × StepRec :=
  let h := key % m
  let bucket := table.getD h [] ++ [key]
  (table.set h bucket,
    StepRec.chain key h h bucket.length
      (toString key ++ " % " ++ toString m ++ " = " ++ toString h))

/-- The `for key in keys` loop of `build_chaining`. -/
def runChain (m : Nat) : List (List Nat) → List Nat → List (List Nat) × List StepRec
  | table, [] => (table, [])
  | table, k :: ks =>
      let p := chInsert m table k
      let rest := runChain m p.1 ks
      (rest.1, p.2 :: rest.2)

/-- Embedding of `build_chaining(keys, table_size)`. -/
def build_chaining (keys : List Nat) (table_size : Nat) : PuzzleResult :=
  let r := runChain table_size (List.replicate table_size []) keys
  { technique := "chaining"
    technique_label := "Separate Chaining"
    table_size := table_size
    keys := keys
    solution := Solution.buckets r.1
    steps := r.2
    description := "Each slot holds a linked list. Colliding keys are chained together."
    formula_label := "h(k) = k mod m → append to chain at index" }

/-- The inner cluster loop `for j in range(cluster_size)` of both key
synthesizers: candidate keys `base_hash + j * table_size`, kept when within
`[1, max_val]` and not already used.  The Python `used` set always holds
exactly the elements of `keys`, so membership in `keys` models it. -/
def addCluster (table_size max_val base_hash size : Nat) (keys : List Nat) :
    List Nat :=
  (List.range size).foldl (fun ks j =>
    let k := base_hash + j * table_size
    if 1 ≤ k ∧ k ≤ max_val ∧ k ∉ ks then ks ++ [k] else ks) keys

/-- The cluster loop of `_generate_collision_keys`: `clusters` iterations,
each drawing `base_hash = randint(0, table_size - 1)`.  Returns the key
list and the advanced draw counter. -/
def clusterLoop (table_size max_val size : Nat) (g : Nat → Nat) :
    Nat → Nat → List Nat → List Nat × Nat
  | 0, c, keys => (keys, c)
  | n + 1, c, keys =>
      let base := randint 0 (table_size - 1) g c
      clusterLoop table_size max_val size g n (c + 1)
        (addCluster table_size max_val base size keys)

/-- The cluster loop of `_generate_quadratic_keys`: one iteration per
`(ignored, size)` pair, each drawing `base_hash = randint(1, table_size - 2)`. -/
def qclusterLoop (table_size max_val : Nat) (g : Nat → Nat) :
    List (Nat × Nat) → Nat → List Nat → List Nat × Nat
  | [], c, keys => (keys, c)
  | cfg :: rest, c, keys =>
      let base := randint 1 (table_size - 2) g c
      qclusterLoop table_size max_val g rest (c + 1)
        (addCluster table_size max_val base cfg.2 keys)

/-- The fill phase `while len(keys) < num_keys and attempts < 1000` of both
synthesizers, with the remaining attempts (`1000 - attempts`) as fuel and
the running `attempts` counter explicit.  Returns the keys and the final
value of `attempts`. -/
def fillLoopAux (num_keys max_val : Nat) (g : Nat → Nat) :
    List Nat → Nat → Nat → Nat → List Nat × Nat
  | keys, _, attempts, 0 => (keys, attempts)
  | keys, c, attempts, fuel + 1 =>
    if keys.length < num_keys then
      let k := randint 1 max_val g c
      if k ∈ keys then fillLoopAux num_keys max_val g keys (c + 1) (attempts + 1) fuel
      else fillLoopAux num_keys max_val g (keys ++ [k]) (c + 1) (attempts + 1) fuel
    else (keys, attempts)

/-- Fill phase started with `attempts = 0` and the 1000-attempt cap. -/
def fillLoop (num_keys max_val : Nat) (g : Nat → Nat) (keys : List Nat)
    (c : Nat) : List Nat × Nat :=
  fillLoopAux num_keys max_val g keys c 0 1000

/-- Lookup of the cluster-count dict (easy 1, medium 2, hard 3) at `difficulty`;
`none` models the `KeyError` of a failed dict lookup. -/
def clustersFor (difficulty : String) : Option Nat :=
  if difficulty = "easy" then some 1
  else if difficulty = "medium" then some 2
  else if difficulty = "hard" then some 3
  else none

/-- Lookup of the cluster-size dict (easy 2, medium 2, hard 3) at `difficulty`. -/
def clusterSizeFor (difficulty : String) : Option Nat :=
  if difficulty = "easy" then some 2
  else if difficulty = "medium" then some 2
  else if difficulty = "hard" then some 3
  else none

/-- The `cluster_configs` dict of `_generate_quadratic_keys`. -/
def qclusterConfigsFor (difficulty : String) : Option (List (Nat × Nat)) :=
  if difficulty = "easy" then some [(1, 3)]
  else if difficulty = "medium" then some [(1, 4), (1, 2)]
  else if difficulty = "hard" then some [(1, 4), (1, 3)]
  else none

/-- Embedding of `_generate_collision_keys(table_size, num_keys, max_val, difficulty)`:
cluster phase, fill phase, shuffle, truncate.  `none` models the
`KeyError` on an unknown difficulty. -/
def _generate_collision_keys (table_size num_keys max_val : Nat)
    (difficulty : String) (g : Nat → Nat) (shuffle : List Nat → List Nat) :
    Option (List Nat) :=
  match clustersFor difficulty, clusterSizeFor difficulty with
  | some clusters, some cluster_size =>
      let kc := clusterLoop table_size max_val cluster_size g clusters 0 []
      let kf := fillLoop num_keys max_val g kc.1 kc.2
      some ((shuffle kf.1).take num_keys)
  | _, _ => none

/-- Embedding of `_generate_quadratic_keys(table_size, num_keys, max_val, difficulty)`. -/
def _generate_quadratic_keys (table_size num_keys max_val : Nat)
    (difficulty : String) (g : Nat → Nat) (shuffle : List Nat → List Nat) :
    Option (List Nat) :=
  match qclusterConfigsFor difficulty with
  | some cfgs =>
      let kc := qclusterLoop table_size max_val g cfgs 0 []
      let kf := fillLoop num_keys max_val g kc.1 kc.2
      some ((shuffle kf.1).take num_keys)
  | none => none

/-- One difficulty entry of the `config` dict of `generate_puzzle`. -/
structure Config where
  table_size : Nat
  num_keys : Nat
  max_val : Nat
deriving DecidableEq

/-- The `config` dict lookup of `generate_puzzle`; `none` models the
`KeyError` on an unknown difficulty. -/
def configFor (difficulty : String) : Option Config :=
  if difficulty = "easy" then some ⟨7, 4, 99⟩
  else if difficulty = "medium" then some ⟨11, 7, 199⟩
  else if difficulty = "hard" then some ⟨13, 9, 299⟩
  else none

/-- Embedding of `generate_puzzle(technique, difficulty)`: difficulty lookup, synthesizer
choice (quadratic-biased iff the technique is quadratic probing), builder
dispatch with linear probing as the fall-through branch. -/
def generate_puzzle (technique difficulty : String) (g : Nat → Nat)
    (shuffle : List Nat → List Nat) : Option PuzzleResult :=
  match configFor difficulty with
  | none => none
  | some cfg =>
    let keysOpt :=
      if technique = "quadratic_probing" then
        _generate_quadratic_keys cfg.table_size cfg.num_keys cfg.max_val difficulty g shuffle
      else
        _generate_collision_keys cfg.table_size cfg.num_keys cfg.max_val difficulty g shuffle
    match keysOpt with
    | none => none
    | some keys =>
      if technique = "linear_probing" then
        some (build_linear_probing keys cfg.table_size)
      else if technique = "quadratic_probing" then
        some (build_quadratic_probing keys cfg.table_size)
      else if technique = "double_hashing" then
        some (build_double_hashing keys cfg.table_size)
      else if technique = "chaining" then
        some (build_chaining keys cfg.table_size)
      else
        some (build_linear_probing keys cfg.table_size)

/-- The observable step data used by the example claims: key, final index,
collision count, probe sequence (`none` components for shapes that lack the
field). -/
def stepView (s : StepRec) : Nat × Option Nat × Option Nat × Option (List Nat) :=
  match s with
  | StepRec.probe k _ _ seq fin coll _ => (k, some fin, some coll, some seq)
  | StepRec.chain k _ fin _ _ => (k, some fin, none, none)
  | StepRec.err k _ => (k, none, none, none)

/-- Whether a step record is an error record. -/
def StepRec.isErr : StepRec → Bool
  | StepRec.err _ _ => true
  | _ => false

/-- Table-shape property of one insertion: it either leaves the table
unchanged (error case) or fills exactly one previously empty slot. -/
def InsTableSpec (m : Nat)
    (ins : List (Option Nat) → Nat → List (Option Nat) × StepRec) : Prop :=
  ∀ t k, t.length = m →
    (ins t k).1 = t ∨
    ∃ fin, fin < t.length ∧ tget t fin = none ∧
      (ins t k).1 = t.set fin (some k)

/-- Step-shape property of one insertion: a probe record describes a real
placement, and every probed slot before the last held something. -/
def InsProbeSpec (m : Nat)
    (ins : List (Option Nat) → Nat → List (Option Nat) × StepRec) : Prop :=
  ∀ t k k' h0 h2v seq fin coll f, t.length = m →
    (ins t k).2 = StepRec.probe k' h0 h2v seq fin coll f →
    k' = k ∧ fin < t.length ∧ tget t fin = none ∧
    (ins t k).1 = t.set fin (some k) ∧
    ∀ j idx, j + 1 < seq.length → seq.get? j = some idx → tget t idx ≠ none

/-- Replaying the first `i` insertions against a fresh simulated table: the
table state at the moment the `i`-th key is processed. -/
def replayFrom (ins : List (Option Nat) → Nat → List (Option Nat) × StepRec)
    (t : List (Option Nat)) (keys : List Nat) (i : Nat) : List (Option Nat) :=
  (runInserts ins t (keys.take i)).1

/-- Number of occupied slots of an array-based table. -/
def occ (t : List (Option Nat)) : Nat :=
  t.countP (fun o => o.isSome)

/-- Invariant maintained by both synthesizers: distinct keys, all within
`[1, max_val]`. -/
def KeysInv (max_val : Nat) (ks : List Nat) : Prop :=
  ks.Nodup ∧ ∀ v, v ∈ ks → 1 ≤ v ∧ v ≤ max_val

/-- The per-record soundness property the spec claims for the array-based
resolvers: each non-error record's key sits at its final index of the
returned solution table, and every non-final entry of its probe sequence
held a different key at probe time (table states obtained by replaying the
insertions in order). -/
def resolverSound (ins : List (Option Nat) → Nat → List (Option Nat) × StepRec)
    (m : Nat) (r : PuzzleResult) (keys : List Nat) : Prop :=
  ∀ i key h0 h2v seq fin coll f,
    r.steps.get? i = some (StepRec.probe key h0 h2v seq fin coll f) →
    (∃ tbl, r.solution = Solution.flat tbl ∧ tget tbl fin = some key) ∧
    ∀ j idx, j + 1 < seq.length → seq.get? j = some idx →
      ∃ kp, tget (replayFrom ins (List.replicate m none) keys i) idx = some kp ∧
        kp ≠ key

theorem getD_set_self {α : Type} (t : List α) (i : Nat) (v d : α)
    (h : i < t.length) : (t.set i v).getD i d = v := by
  induction t generalizing i with
  | nil => simp at h
  | cons a t ih =>
    cases i with
    | zero => simp
    | succ n => simpa using ih n (by simpa using h)

theorem getD_set_other {α : Type} (t : List α) (i j : Nat) (v d : α)
    (h : i ≠ j) : (t.set i v).getD j d = t.getD j d := by
  induction t generalizing i j with
  | nil => simp
  | cons a t ih =>
    cases i with
    | zero =>
      cases j with
      | zero => exact absurd rfl h
      | succ n => simp
    | succ n =>
      cases j with
      | zero => simp
      | succ p => simpa using ih n p (by omega)

theorem tget_set_self (t : List (Option Nat)) (i : Nat) (v : Option Nat)
    (h : i < t.length) : tget (t.set i v) i = v :=
  getD_set_self t i v none h

theorem tget_set_other (t : List (Option Nat)) (i j : Nat) (v : Option Nat)
    (h : i ≠ j) : tget (t.set i v) j = tget t j :=
  getD_set_other t i j v none h

theorem getD_replicate {α : Type} (n i : Nat) (a : α) :
    (List.replicate n a).getD i a = a := by
  induction n generalizing i with
  | zero => simp [List.getD]
  | succ n ih =>
    cases i with
    | zero => simp [List.replicate]
    | succ j => simp [List.replicate]

theorem tget_replicate (n i : Nat) : tget (List.replicate n none) i = none :=
  getD_replicate n i none

theorem probeFindAux_some (m : Nat) (t : List (Option Nat)) (off : Nat → Nat)
    (h0 : Nat) : ∀ fuel i p, probeFindAux m t off h0 i fuel = some p →
    i ≤ p ∧ p < i + fuel ∧ tget t ((h0 + off p) % m) = none ∧
    ∀ q, i ≤ q → q < p → tget t ((h0 + off q) % m) ≠ none := by
  intro fuel
  induction fuel with
  | zero => intro i p h; simp [probeFindAux] at h
  | succ n ih =>
    intro i p h
    by_cases he : tget t ((h0 + off i) % m) = none
    · rw [probeFindAux, if_pos he] at h
      injection h with h
      subst h
      exact ⟨Nat.le_refl i, by omega, he, fun q hq hq' => absurd (Nat.lt_of_le_of_lt hq hq') (by omega)⟩
    · rw [probeFindAux, if_neg he] at h
      obtain ⟨h1, h2, h3, h4⟩ := ih (i + 1) p h
      refine ⟨by omega, by omega, h3, ?_⟩
      intro q hq hq'
      rcases Nat.eq_or_lt_of_le hq with hq | hq
      · subst hq; exact he
      · exact h4 q hq hq'

theorem probeFindAux_none (m : Nat) (t : List (Option Nat)) (off : Nat → Nat)
    (h0 : Nat) : ∀ fuel i, probeFindAux m t off h0 i fuel = none →
    ∀ q, i ≤ q → q < i + fuel → tget t ((h0 + off q) % m) ≠ none := by
  intro fuel
  induction fuel with
  | zero => intro i _ q hq hq'; omega
  | succ n ih =>
    intro i h q hq hq'
    by_cases he : tget t ((h0 + off i) % m) = none
    · rw [probeFindAux, if_pos he] at h; exact absurd h (by simp)
    · rw [probeFindAux, if_neg he] at h
      rcases Nat.eq_or_lt_of_le hq with hq | hq
      · subst hq; exact he
      · exact ih (i + 1) h q hq (by omega)

theorem probeInsert_probe_inv (m : Nat) (off : Nat → Nat) (h2v : Option Nat)
    (msg : String) (hint : Nat → Nat → String) (t : List (Option Nat))
    (key k' h0 : Nat) (h2v' : Option Nat) (seq : List Nat) (fin coll : Nat)
    (f : String)
    (hstep : (probeInsert m off h2v msg hint t key).2 =
      StepRec.probe k' h0 h2v' seq fin coll f) :
    k' = key ∧ h0 = key % m ∧ h2v' = h2v ∧ coll < m ∧
    fin = (key % m + off coll) % m ∧ tget t fin = none ∧
    (probeInsert m off h2v msg hint t key).1 = t.set fin (some key) ∧
    seq = (List.range (coll + 1)).map (fun i => (key % m + off i) % m) ∧
    ∀ q, q < coll → tget t ((key % m + off q) % m) ≠ none := by
  cases hpf : probeFind m t off (key % m) with
  | none => simp [probeInsert, hpf] at hstep
  | some p =>
    obtain ⟨_, hplt, hemp, hocc⟩ := probeFindAux_some m t off (key % m) m 0 p hpf
    simp only [probeInsert, hpf] at hstep
    obtain ⟨hk, hh0, hhv, hseq, hfin, hcoll, _⟩ := StepRec.probe.inj hstep
    subst hk; subst hh0; subst hhv; subst hcoll; subst hfin; subst hseq
    refine ⟨rfl, rfl, rfl, by omega, rfl, hemp, ?_, rfl, ?_⟩
    · simp only [probeInsert, hpf]
    · intro q hq; exact hocc q (Nat.zero_le q) hq

theorem probeInsert_err_inv (m : Nat) (off : Nat → Nat) (h2v : Option Nat)
    (msg : String) (hint : Nat → Nat → String) (t : List (Option Nat))
    (key k' : Nat) (e : String)
    (hstep : (probeInsert m off h2v msg hint t key).2 = StepRec.err k' e) :
    k' = key ∧ e = msg ∧ (probeInsert m off h2v msg hint t key).1 = t ∧
    probeFind m t off (key % m) = none ∧
    ∀ q, q < m → tget t ((key % m + off q) % m) ≠ none := by
  cases hpf : probeFind m t off (key % m) with
  | some p => simp [probeInsert, hpf] at hstep
  | none =>
    simp only [probeInsert, hpf] at hstep
    obtain ⟨hk, he⟩ := StepRec.err.inj hstep
    subst hk; subst he
    refine ⟨rfl, rfl, by simp only [probeInsert, hpf], rfl, ?_⟩
    intro q hq
    exact probeFindAux_none m t off (key % m) m 0 hpf q (Nat.zero_le q) (by omega)

theorem probeInsert_err_of_find_none (m : Nat) (off : Nat → Nat)
    (h2v : Option Nat) (msg : String) (hint : Nat → Nat → String)
    (t : List (Option Nat)) (key : Nat)
    (hpf : probeFind m t off (key % m) = none) :
    probeInsert m off h2v msg hint t key = (t, StepRec.err key msg) := by
  simp only [probeInsert, hpf]

theorem probeInsert_table (m : Nat) (off : Nat → Nat) (h2v : Option Nat)
    (msg : String) (hint : Nat → Nat → String) (t : List (Option Nat))
    (key : Nat) (ht : t.length = m) :
    (probeInsert m off h2v msg hint t key).1 = t ∨
    ∃ fin, fin < t.length ∧ tget t fin = none ∧
      (probeInsert m off h2v msg hint t key).1 = t.set fin (some key) := by
  cases hpf : probeFind m t off (key % m) with
  | none => left; simp only [probeInsert, hpf]
  | some p =>
    right
    obtain ⟨_, hplt, hemp, _⟩ := probeFindAux_some m t off (key % m) m 0 p hpf
    refine ⟨(key % m + off p) % m, ?_, hemp, by simp only [probeInsert, hpf]⟩
    rw [ht]
    exact Nat.mod_lt _ (by omega)

theorem probeInsert_probeSpec (m : Nat) (off : Nat → Nat) (h2v : Option Nat)
    (msg : String) (hint : Nat → Nat → String) (t : List (Option Nat))
    (k k' h0 : Nat) (h2v' : Option Nat) (seq : List Nat) (fin coll : Nat)
    (f : String) (ht : t.length = m)
    (hstep : (probeInsert m off h2v msg hint t k).2 =
      StepRec.probe k' h0 h2v' seq fin coll f) :
    k' = k ∧ fin < t.length ∧ tget t fin = none ∧
    (probeInsert m off h2v msg hint t k).1 = t.set fin (some k) ∧
    ∀ j idx, j + 1 < seq.length → seq.get? j = some idx → tget t idx ≠ none := by
  obtain ⟨hk, _, _, hcoll, hfin, hemp, htab, hseq, hq⟩ :=
    probeInsert_probe_inv m off h2v msg hint t k k' h0 h2v' seq fin coll f hstep
  refine ⟨hk, ?_, hemp, htab, ?_⟩
  · rw [ht, hfin]; exact Nat.mod_lt _ (by omega)
  · intro j idx hj hidx
    have hjlt : j < coll := by
      rw [hseq] at hj; simp at hj; omega
    have hidx' : idx = (k % m + off j) % m := by
      rw [hseq, List.get?_map, List.get?_range (by omega)] at hidx
      simp only [Option.map_some'] at hidx
      exact (Option.some.inj hidx).symm
    rw [hidx']
    exact hq j hjlt

theorem lpInsert_tableSpec (m : Nat) : InsTableSpec m (lpInsert m) := by
  intro t k ht
  exact probeInsert_table m (fun i => i) none _ _ t k ht

theorem qpInsert_tableSpec (m : Nat) : InsTableSpec m (qpInsert m) := by
  intro t k ht
  exact probeInsert_table m (fun i => i * i) none _ _ t k ht

theorem dhInsert_tableSpec (m : Nat) : InsTableSpec m (dhInsert m) := by
  intro t k ht
  exact probeInsert_table m (fun i => i * (1 + k % (m - 1))) _ _ _ t k ht

theorem lpInsert_probeSpec (m : Nat) : InsProbeSpec m (lpInsert m) := by
  intro t k k' h0 h2v seq fin coll f ht hstep
  exact probeInsert_probeSpec m (fun i => i) none _ _ t k k' h0 h2v seq fin coll f ht hstep

theorem qpInsert_probeSpec (m : Nat) : InsProbeSpec m (qpInsert m) := by
  intro t k k' h0 h2v seq fin coll f ht hstep
  exact probeInsert_probeSpec m (fun i => i * i) none _ _ t k k' h0 h2v seq fin coll f ht hstep

theorem dhInsert_probeSpec (m : Nat) : InsProbeSpec m (dhInsert m) := by
  intro t k k' h0 h2v seq fin coll f ht hstep
  exact probeInsert_probeSpec m (fun i => i * (1 + k % (m - 1))) _ _ _ t k k' h0 h2v seq fin coll f ht hstep

theorem insTableLen (m : Nat)
    (ins : List (Option Nat) → Nat → List (Option Nat) × StepRec)
    (hA : InsTableSpec m ins) (t : List (Option Nat)) (k : Nat)
    (ht : t.length = m) : ((ins t k).1).length = m := by
  rcases hA t k ht with h | ⟨fin, _, _, hset⟩
  · rw [h]; exact ht
  · rw [hset, List.length_set]; exact ht

theorem insMono (m : Nat)
    (ins : List (Option Nat) → Nat → List (Option Nat) × StepRec)
    (hA : InsTableSpec m ins) (t : List (Option Nat)) (k idx v : Nat)
    (ht : t.length = m) (hv : tget t idx = some v) :
    tget (ins t k).1 idx = some v := by
  rcases hA t k ht with h | ⟨fin, hlt, hemp, hset⟩
  · rw [h]; exact hv
  · rw [hset]
    have hne : fin ≠ idx := by
      intro hcon; subst hcon; rw [hv] at hemp; exact Option.noConfusion hemp
    rw [tget_set_other t fin idx (some k) hne]
    exact hv

theorem runInserts_steps_length
    (ins : List (Option Nat) → Nat → List (Option Nat) × StepRec) :
    ∀ ks t, ((runInserts ins t ks).2).length = ks.length := by
  intro ks
  induction ks with
  | nil => intro t; simp [runInserts]
  | cons k ks ih => intro t; simp [runInserts, ih]

theorem runInserts_table_length (m : Nat)
    (ins : List (Option Nat) → Nat → List (Option Nat) × StepRec)
    (hA : InsTableSpec m ins) :
    ∀ ks t, t.length = m → ((runInserts ins t ks).1).length = m := by
  intro ks
  induction ks with
  | nil => intro t ht; simpa [runInserts] using ht
  | cons k ks ih =>
    intro t ht
    simpa [runInserts] using ih (ins t k).1 (insTableLen m ins hA t k ht)

theorem runInserts_mono (m : Nat)
    (ins : List (Option Nat) → Nat → List (Option Nat) × StepRec)
    (hA : InsTableSpec m ins) :
    ∀ ks t idx v, t.length = m → tget t idx = some v →
      tget (runInserts ins t ks).1 idx = some v := by
  intro ks
  induction ks with
  | nil => intro t idx v _ hv; simpa [runInserts] using hv
  | cons k ks ih =>
    intro t idx v ht hv
    simpa [runInserts] using
      ih (ins t k).1 idx v (insTableLen m ins hA t k ht) (insMono m ins hA t k idx v ht hv)

theorem runInserts_get?_step
    (ins : List (Option Nat) → Nat → List (Option Nat) × StepRec) :
    ∀ ks t i, ((runInserts ins t ks).2).get? i =
      (ks.get? i).map (fun k => (ins (replayFrom ins t ks i) k).2) := by
  intro ks
  induction ks with
  | nil => intro t i; simp [runInserts]
  | cons k ks ih =>
    intro t i
    cases i with
    | zero => simp [runInserts, replayFrom]
    | succ n =>
      have := ih (ins t k).1 n
      simpa [runInserts, replayFrom, List.take_succ_cons] using this

theorem replayFrom_succ
    (ins : List (Option Nat) → Nat → List (Option Nat) × StepRec) :
    ∀ keys t i k, keys.get? i = some k →
      replayFrom ins t keys (i + 1) = (ins (replayFrom ins t keys i) k).1 := by
  intro keys
  induction keys with
  | nil => intro t i k h; simp at h
  | cons a ks ih =>
    intro t i k h
    cases i with
    | zero =>
      rw [List.get?_cons_zero] at h
      injection h with h
      subst h
      simp [replayFrom, runInserts]
    | succ n =>
      rw [List.get?_cons_succ] at h
      have := ih (ins t a).1 n k h
      simpa [replayFrom, runInserts, List.take_succ_cons] using this

theorem runSound (m : Nat)
    (ins : List (Option Nat) → Nat → List (Option Nat) × StepRec)
    (hA : InsTableSpec m ins) (hB : InsProbeSpec m ins) :
    ∀ ks t, t.length = m → ks.Nodup →
    (∀ k, k ∈ ks → ∀ idx, tget t idx ≠ some k) →
    ∀ i key h0 h2v seq fin coll f,
      ((runInserts ins t ks).2).get? i =
        some (StepRec.probe key h0 h2v seq fin coll f) →
      tget (runInserts ins t ks).1 fin = some key ∧
      ∀ j idx, j + 1 < seq.length → seq.get? j = some idx →
        ∃ kp, tget (replayFrom ins t ks i) idx = some kp ∧ kp ≠ key := by
  intro ks
  induction ks with
  | nil =>
    intro t _ _ _ i key h0 h2v seq fin coll f hstep
    simp [runInserts] at hstep
  | cons k ks ih =>
    intro t ht hnd hfresh i key h0 h2v seq fin coll f hstep
    have hkn : k ∉ ks := (List.nodup_cons.mp hnd).1
    cases i with
    | zero =>
      have hstep' : (ins t k).2 = StepRec.probe key h0 h2v seq fin coll f := by
        simpa [runInserts] using hstep
      obtain ⟨hk, hfin, hemp, htab, hocc⟩ :=
        hB t k key h0 h2v seq fin coll f ht hstep'
      subst hk
      constructor
      · have h1 : tget (ins t key).1 fin = some key := by
          rw [htab]; exact tget_set_self t fin (some key) hfin
        have h2 := runInserts_mono m ins hA ks (ins t key).1 fin key
          (insTableLen m ins hA t key ht) h1
        simpa [runInserts] using h2
      · intro j idx hj hidx
        have hocc' := hocc j idx hj hidx
        cases hc : tget t idx with
        | none => exact absurd hc hocc'
        | some kp =>
          refine ⟨kp, ?_, ?_⟩
          · simpa [replayFrom, runInserts] using hc
          · intro hkp
            subst hkp
            exact hfresh kp (List.mem_cons_self kp ks) idx hc
    | succ n =>
      have hstep' : ((runInserts ins (ins t k).1 ks).2).get? n =
          some (StepRec.probe key h0 h2v seq fin coll f) := by
        simpa [runInserts] using hstep
      have ht' : ((ins t k).1).length = m := insTableLen m ins hA t k ht
      have hnd' : ks.Nodup := (List.nodup_cons.mp hnd).2
      have hfresh' : ∀ k'', k'' ∈ ks → ∀ idx, tget (ins t k).1 idx ≠ some k'' := by
        intro k'' hk'' idx
        rcases hA t k ht with hsame | ⟨fin', hlt, hemp', hset⟩
        · rw [hsame]; exact hfresh k'' (List.mem_cons_of_mem k hk'') idx
        · rw [hset]
          by_cases hij : fin' = idx
          · subst hij
            rw [tget_set_self t fin' (some k) hlt]
            intro hcon
            injection hcon with hck
            exact hkn (hck ▸ hk'')
          · rw [tget_set_other t fin' idx (some k) hij]
            exact hfresh k'' (List.mem_cons_of_mem k hk'') idx
      have hmain := ih (ins t k).1 ht' hnd' hfresh' n key h0 h2v seq fin coll f hstep'
      constructor
      · simpa [runInserts] using hmain.1
      · intro j idx hj hidx
        have h2 := hmain.2 j idx hj hidx
        simpa [replayFrom, runInserts, List.take_succ_cons] using h2

theorem occ_replicate (n : Nat) : occ (List.replicate n none) = 0 := by
  induction n with
  | zero => rfl
  | succ n ih => simp [occ, List.replicate, List.countP_cons]

theorem occ_set_some (t : List (Option Nat)) (i v : Nat) :
    i < t.length → tget t i = none → occ (t.set i (some v)) = occ t + 1 := by
  induction t generalizing i with
  | nil => intro h _; simp at h
  | cons a t ih =>
    intro hi he
    cases i with
    | zero =>
      have ha : a = none := he
      subst ha
      simp [occ, List.countP_cons]
    | succ n =>
      have h1 := ih n (by simpa using hi) (by simpa [tget] using he)
      simp only [List.set, occ, List.countP_cons] at h1 ⊢
      omega

theorem occ_eq_length_of_full (t : List (Option Nat)) :
    (∀ idx, idx < t.length → tget t idx ≠ none) → occ t = t.length := by
  induction t with
  | nil => intro _; rfl
  | cons a t ih =>
    intro h
    have ha : a ≠ none := by
      have := h 0 (by simp)
      simpa [tget] using this
    have ht : ∀ idx, idx < t.length → tget t idx ≠ none := by
      intro idx hidx
      have := h (idx + 1) (by simpa using Nat.succ_lt_succ hidx)
      simpa [tget] using this
    have hsome : (fun o => Option.isSome o) a = true := by
      cases a with
      | none => exact absurd rfl ha
      | some _ => rfl
    have hrec := ih ht
    simp only [occ, List.countP_cons, hsome, List.length_cons, if_true] at hrec ⊢
    omega

theorem occ_ins_le (m : Nat)
    (ins : List (Option Nat) → Nat → List (Option Nat) × StepRec)
    (hA : InsTableSpec m ins) (t : List (Option Nat)) (k : Nat)
    (ht : t.length = m) : occ (ins t k).1 ≤ occ t + 1 := by
  rcases hA t k ht with hsame | ⟨fin, hlt, hemp, hset⟩
  · rw [hsame]; omega
  · rw [hset, occ_set_some t fin k hlt hemp]

theorem occ_run_le (m : Nat)
    (ins : List (Option Nat) → Nat → List (Option Nat) × StepRec)
    (hA : InsTableSpec m ins) :
    ∀ ks t, t.length = m → occ (runInserts ins t ks).1 ≤ occ t + ks.length := by
  intro ks
  induction ks with
  | nil => intro t _; simp [runInserts]
  | cons k ks ih =>
    intro t ht
    have h1 := ih (ins t k).1 (insTableLen m ins hA t k ht)
    have h2 := occ_ins_le m ins hA t k ht
    simp only [runInserts, List.length_cons]
    omega

/-- Every residue below `m` is reachable by the linear probe offsets
`h0, h0 + 1, ..., h0 + m - 1` modulo `m`. -/
theorem linear_offsets_cover (m h0 idx : Nat) (hm : 0 < m) (hidx : idx < m) :
    ∃ q, q < m ∧ (h0 + q) % m = idx := by
  refine ⟨(idx + (m - h0 % m)) % m, Nat.mod_lt _ hm, ?_⟩
  have ha : h0 % m < m := Nat.mod_lt _ hm
  have hsum : h0 % m + (idx + (m - h0 % m)) = idx + m := by
    rw [Nat.add_left_comm, Nat.add_sub_cancel' (Nat.le_of_lt ha)]
  calc (h0 + (idx + (m - h0 % m)) % m) % m
      = (h0 % m + (idx + (m - h0 % m)) % m) % m := (Nat.mod_add_mod _ _ _).symm
    _ = (h0 % m + (idx + (m - h0 % m))) % m := Nat.add_mod_mod _ _ _
    _ = (idx + m) % m := by rw [hsum]
    _ = idx % m := Nat.add_mod_right idx m
    _ = idx := Nat.mod_eq_of_lt hidx

theorem runChain_steps_length (m : Nat) :
    ∀ ks t, ((runChain m t ks).2).length = ks.length := by
  intro ks
  induction ks with
  | nil => intro t; simp [runChain]
  | cons k ks ih => intro t; simp [runChain, ih]

theorem runChain_table_length (m : Nat) :
    ∀ ks t, ((runChain m t ks).1).length = t.length := by
  intro ks
  induction ks with
  | nil => intro t; simp [runChain]
  | cons k ks ih =>
    intro t
    simp only [runChain]
    rw [ih]
    simp [chInsert, List.length_set]

theorem runChain_no_err (m : Nat) :
    ∀ ks t s, s ∈ (runChain m t ks).2 → s.isErr = false := by
  intro ks
  induction ks with
  | nil => intro t s hs; simp [runChain] at hs
  | cons k ks ih =>
    intro t s hs
    simp only [runChain, List.mem_cons] at hs
    rcases hs with hs | hs
    · subst hs; rfl
    · exact ih (chInsert m t k).1 s hs

theorem runChain_keys (m : Nat) :
    ∀ ks t, ((runChain m t ks).2).map stepView =
      ks.map (fun k => (k, some (k % m), none, none)) := by
  intro ks
  induction ks with
  | nil => intro t; simp [runChain]
  | cons k ks ih =>
    intro t
    simp [runChain, ih, chInsert, stepView]

theorem runChain_bucket (m : Nat) :
    ∀ ks t i, t.length = m → i < m →
      ((runChain m t ks).1).getD i [] =
        t.getD i [] ++ ks.filter (fun k => k % m == i) := by
  intro ks
  induction ks with
  | nil => intro t i _ _; simp [runChain]
  | cons k ks ih =>
    intro t i ht hi
    have hlen : ((chInsert m t k).1).length = m := by
      simp [chInsert, List.length_set, ht]
    by_cases hk : k % m = i
    · have hfil : (k :: ks).filter (fun k => k % m == i) =
          k :: ks.filter (fun k => k % m == i) :=
        List.filter_cons_of_pos (by simp [hk])
      rw [hfil]
      have hb : ((chInsert m t k).1).getD i [] = t.getD i [] ++ [k] := by
        simp only [chInsert]
        rw [← hk]
        exact getD_set_self t (k % m) _ [] (by rw [ht]; exact hk ▸ hk ▸ Nat.mod_lt _ (by omega))
      have := ih (chInsert m t k).1 i hlen hi
      rw [hb] at this
      simp only [runChain]
      rw [this, List.append_assoc]
      simp
    · have hfil : (k :: ks).filter (fun k => k % m == i) =
          ks.filter (fun k => k % m == i) :=
        List.filter_cons_of_neg (by simp [hk])
      rw [hfil]
      have hb : ((chInsert m t k).1).getD i [] = t.getD i [] := by
        simp only [chInsert]
        exact getD_set_other t (k % m) i _ [] hk
      have := ih (chInsert m t k).1 i hlen hi
      rw [hb] at this
      simp only [runChain]
      rw [this]

theorem sum_set_append (t : List (List Nat)) :
    ∀ i k, i < t.length →
      (((t.set i (t.getD i [] ++ [k])).map List.length).sum) =
        ((t.map List.length).sum) + 1 := by
  induction t with
  | nil => intro i k h; simp at h
  | cons b t ih =>
    intro i k hi
    cases i with
    | zero => simp [List.getD]; omega
    | succ n =>
      have := ih n k (by simpa using hi)
      simp only [List.set, List.map_cons, List.sum_cons, List.getD_cons_succ]
      rw [this]
      omega

theorem runChain_sum (m : Nat) (hm : 0 < m) :
    ∀ ks t, t.length = m →
      (((runChain m t ks).1).map List.length).sum =
        ((t.map List.length).sum) + ks.length := by
  intro ks
  induction ks with
  | nil => intro t _; simp [runChain]
  | cons k ks ih =>
    intro t ht
    have hlen : ((chInsert m t k).1).length = m := by
      simp [chInsert, List.length_set, ht]
    have h1 := ih (chInsert m t k).1 hlen
    have h2 : (((chInsert m t k).1).map List.length).sum =
        ((t.map List.length).sum) + 1 := by
      simp only [chInsert]
      exact sum_set_append t (k % m) k (by rw [ht]; exact Nat.mod_lt _ hm)
    simp only [runChain]
    rw [h1, h2, List.length_cons]
    omega

theorem fillLoopAux_attempts_le (num_keys max_val : Nat) (g : Nat → Nat) :
    ∀ fuel keys c a, ((fillLoopAux num_keys max_val g keys c a fuel).2) ≤ a + fuel := by
  intro fuel
  induction fuel with
  | zero => intro keys c a; simp [fillLoopAux]
  | succ n ih =>
    intro keys c a
    by_cases hl : keys.length < num_keys
    · rw [fillLoopAux, if_pos hl]
      by_cases hk : randint 1 max_val g c ∈ keys
      · rw [if_pos hk]
        have := ih keys (c + 1) (a + 1)
        omega
      · rw [if_neg hk]
        have := ih (keys ++ [randint 1 max_val g c]) (c + 1) (a + 1)
        omega
    · rw [fillLoopAux, if_neg hl]
      omega

theorem keysInv_append (max_val k : Nat) (ks : List Nat) (h : KeysInv max_val ks)
    (h1 : 1 ≤ k) (h2 : k ≤ max_val) (h3 : k ∉ ks) :
    KeysInv max_val (ks ++ [k]) := by
  constructor
  · rw [List.nodup_append]
    exact ⟨h.1, List.nodup_singleton k, by simpa using h3⟩
  · intro v hv
    rcases List.mem_append.mp hv with hv | hv
    · exact h.2 v hv
    · simp at hv
      subst hv
      exact ⟨h1, h2⟩

theorem addCluster_inv (table_size max_val base size : Nat) (ks : List Nat)
    (h : KeysInv max_val ks) :
    KeysInv max_val (addCluster table_size max_val base size ks) := by
  unfold addCluster
  generalize List.range size = l
  induction l generalizing ks with
  | nil => simpa using h
  | cons j l ih =>
    simp only [List.foldl_cons]
    apply ih
    by_cases hc : 1 ≤ base + j * table_size ∧ base + j * table_size ≤ max_val ∧
        base + j * table_size ∉ ks
    · rw [if_pos hc]
      exact keysInv_append max_val _ ks h hc.1 hc.2.1 hc.2.2
    · rw [if_neg hc]
      exact h

theorem clusterLoop_inv (table_size max_val size : Nat) (g : Nat → Nat) :
    ∀ n c ks, KeysInv max_val ks →
      KeysInv max_val (clusterLoop table_size max_val size g n c ks).1 := by
  intro n
  induction n with
  | zero => intro c ks h; simpa [clusterLoop] using h
  | succ n ih =>
    intro c ks h
    exact ih (c + 1) _ (addCluster_inv table_size max_val _ size ks h)

theorem qclusterLoop_inv (table_size max_val : Nat) (g : Nat → Nat) :
    ∀ cfgs c ks, KeysInv max_val ks →
      KeysInv max_val (qclusterLoop table_size max_val g cfgs c ks).1 := by
  intro cfgs
  induction cfgs with
  | nil => intro c ks h; simpa [qclusterLoop] using h
  | cons cfg rest ih =>
    intro c ks h
    exact ih (c + 1) _ (addCluster_inv table_size max_val _ cfg.2 ks h)

theorem fillLoopAux_inv (num_keys max_val : Nat) (g : Nat → Nat)
    (hmv : 1 ≤ max_val) :
    ∀ fuel keys c a, KeysInv max_val keys →
      KeysInv max_val (fillLoopAux num_keys max_val g keys c a fuel).1 := by
  intro fuel
  induction fuel with
  | zero => intro keys c a h; simpa [fillLoopAux] using h
  | succ n ih =>
    intro keys c a h
    by_cases hl : keys.length < num_keys
    · rw [fillLoopAux, if_pos hl]
      by_cases hk : randint 1 max_val g c ∈ keys
      · rw [if_pos hk]
        exact ih keys (c + 1) (a + 1) h
      · rw [if_neg hk]
        apply ih _ (c + 1) (a + 1)
        apply keysInv_append max_val _ keys h _ _ hk
        · simp [randint]
        · have : g c % (max_val + 1 - 1) < max_val := by
            rw [Nat.add_sub_cancel]
            exact Nat.mod_lt _ (by omega)
          simp only [randint]
          omega
    · rw [fillLoopAux, if_neg hl]
      exact h

theorem keysInv_perm (max_val : Nat) (l l' : List Nat) (hp : l'.Perm l)
    (h : KeysInv max_val l) : KeysInv max_val l' := by
  constructor
  · exact hp.symm.nodup h.1
  · intro v hv
    exact h.2 v (hp.mem_iff.mp hv)

theorem keysInv_take (max_val n : Nat) (l : List Nat) (h : KeysInv max_val l) :
    KeysInv max_val (l.take n) := by
  constructor
  · exact h.1.sublist (List.take_sublist n l)
  · intro v hv
    exact h.2 v ((List.take_sublist n l).subset hv)

theorem runInserts_step_mem
    (ins : List (Option Nat) → Nat → List (Option Nat) × StepRec) :
    ∀ ks t s, s ∈ (runInserts ins t ks).2 →
      ∃ t' k, k ∈ ks ∧ s = (ins t' k).2 := by
  intro ks
  induction ks with
  | nil => intro t s hs; simp [runInserts] at hs
  | cons k ks ih =>
    intro t s hs
    simp only [runInserts, List.mem_cons] at hs
    rcases hs with hs | hs
    · exact ⟨t, k, List.mem_cons_self k ks, hs⟩
    · obtain ⟨t', k', hk', hs'⟩ := ih (ins t k).1 s hs
      exact ⟨t', k', List.mem_cons_of_mem k hk', hs'⟩

theorem buildSoundAux (m : Nat)
    (ins : List (Option Nat) → Nat → List (Option Nat) × StepRec)
    (hA : InsTableSpec m ins) (hB : InsProbeSpec m ins)
    (keys : List Nat) (hnd : keys.Nodup) :
    ∀ i key h0 h2v seq fin coll f,
      ((runInserts ins (List.replicate m none) keys).2).get? i =
        some (StepRec.probe key h0 h2v seq fin coll f) →
      tget (runInserts ins (List.replicate m none) keys).1 fin = some key ∧
      ∀ j idx, j + 1 < seq.length → seq.get? j = some idx →
        ∃ kp, tget (replayFrom ins (List.replicate m none) keys i) idx = some kp ∧
          kp ≠ key :=
  runSound m ins hA hB keys (List.replicate m none) (by simp) hnd
    (fun k _ idx => by rw [tget_replicate]; exact fun h => Option.noConfusion h)

/-- C1 (amended: the input keys are pairwise distinct): for each of the
three array-based resolvers, every Step Record without an error marker has
its key at its final index in the returned solution, and every non-final
entry of its probe sequence held a different key at the moment it was
probed, replaying the insertions in order against a simulated table. -/
theorem C1_theorem (keys : List Nat) (m : Nat) (hnd : keys.Nodup) :
    resolverSound (lpInsert m) m (build_linear_probing keys m) keys ∧
    resolverSound (qpInsert m) m (build_quadratic_probing keys m) keys ∧
    resolverSound (dhInsert m) m (build_double_hashing keys m) keys := by
  refine ⟨?_, ?_, ?_⟩
  · intro i key h0 h2v seq fin coll f hstep
    have h := buildSoundAux m (lpInsert m) (lpInsert_tableSpec m)
      (lpInsert_probeSpec m) keys hnd i key h0 h2v seq fin coll f hstep
    exact ⟨⟨(runInserts (lpInsert m) (List.replicate m none) keys).1, rfl, h.1⟩, h.2⟩
  · intro i key h0 h2v seq fin coll f hstep
    have h := buildSoundAux m (qpInsert m) (qpInsert_tableSpec m)
      (qpInsert_probeSpec m) keys hnd i key h0 h2v seq fin coll f hstep
    exact ⟨⟨(runInserts (qpInsert m) (List.replicate m none) keys).1, rfl, h.1⟩, h.2⟩
  · intro i key h0 h2v seq fin coll f hstep
    have h := buildSoundAux m (dhInsert m) (dhInsert_tableSpec m)
      (dhInsert_probeSpec m) keys hnd i key h0 h2v seq fin coll f hstep
    exact ⟨⟨(runInserts (dhInsert m) (List.replicate m none) keys).1, rfl, h.1⟩, h.2⟩

/-- C1 counterexample: as stated, ranging over every input key sequence,
the claim is false: with the duplicate key sequence `[3, 3]` and table
size 7, the second record's probe sequence visits slot 3, which at probe
time held the equal key 3, not a different key. -/
theorem C1_counterexample :
    ¬ (∀ keys m,
        resolverSound (lpInsert m) m (build_linear_probing keys m) keys ∧
        resolverSound (qpInsert m) m (build_quadratic_probing keys m) keys ∧
        resolverSound (dhInsert m) m (build_double_hashing keys m) keys) := by
  intro h
  have h1 := (h [3, 3] 7).1 1 3 3 none [3, 4] 4 1 (lpHint 3 7 3 1) (by decide)
  obtain ⟨kp, hk, hne⟩ := h1.2 0 3 (by decide) (by decide)
  have h3 : tget (replayFrom (lpInsert 7) (List.replicate 7 none) [3, 3] 1) 3 =
      some 3 := by decide
  rw [h3] at hk
  injection hk with hk
  exact hne hk.symm

theorem C1_witness :
    tget [none, none, none, some 10, some 17, some 24, none] 4 = some 17 ∧
    tget (replayFrom (lpInsert 7) (List.replicate 7 none) [10, 17, 24] 1) 3 =
      some 10 := by
  have h := (C1_theorem [10, 17, 24] 7 (by decide)).1 1 17 3 none [3, 4] 4 1
    (lpHint 17 7 3 1) (by decide)
  obtain ⟨⟨tbl, htbl, hfin⟩, hprobe⟩ := h
  obtain ⟨kp, hk, hne⟩ := hprobe 0 3 (by decide) (by decide)
  have htbl' : tbl = [none, none, none, some 10, some 17, some 24, none] := by
    have h2 := htbl.symm.trans
      (by decide : (build_linear_probing [10, 17, 24] 7).solution =
        Solution.flat [none, none, none, some 10, some 17, some 24, none])
    exact Solution.flat.inj h2
  subst htbl'
  have h10 : tget (replayFrom (lpInsert 7) (List.replicate 7 none) [10, 17, 24] 1) 3 =
      some 10 := by decide
  exact ⟨hfin, h10⟩

/-- C2: on the concrete input `[10, 17, 24]` with table size 7, linear
probing places 10 at slot 3 with 0 collisions and probe sequence `[3]`,
17 at slot 4 with 1 collision and probe sequence `[3, 4]`, and 24 at
slot 5 with 2 collisions and probe sequence `[3, 4, 5]`. -/
theorem C2_theorem :
    ((build_linear_probing [10, 17, 24] 7).steps).map stepView =
      [(10, some 3, some 0, some [3]),
       (17, some 4, some 1, some [3, 4]),
       (24, some 5, some 2, some [3, 4, 5])] ∧
    (build_linear_probing [10, 17, 24] 7).solution =
      Solution.flat [none, none, none, some 10, some 17, some 24, none] := by
  exact ⟨by decide, by decide⟩

/-- C3: every non-error record of the quadratic probing resolver with
`collisions = i` has probe sequence exactly
`[(h0 + p²) mod table_size for p in 0..i]` with `h0 = key mod table_size`,
repeats kept. -/
theorem C3_theorem (keys : List Nat) (m : Nat) (s : StepRec)
    (hs : s ∈ (build_quadratic_probing keys m).steps)
    (key h0 : Nat) (h2v : Option Nat) (seq : List Nat) (fin coll : Nat)
    (f : String) (hp : s = StepRec.probe key h0 h2v seq fin coll f) :
    h0 = key % m ∧
    seq = (List.range (coll + 1)).map (fun p => (key % m + p * p) % m) := by
  subst hp
  obtain ⟨t', k, _, hs'⟩ := runInserts_step_mem (qpInsert m) keys
    (List.replicate m none) _ hs
  obtain ⟨hk, hh0, _, _, _, _, _, hseq, _⟩ :=
    probeInsert_probe_inv m (fun i => i * i) none
      ("No slot found (quadratic probing exhausted)")
      (fun h0 p => qpHint k m h0 p) t' k key h0 h2v seq fin coll f hs'.symm
  subst hk
  exact ⟨hh0, hseq⟩

theorem C3_witness :
    (3 : Nat) = 17 % 7 ∧
    [3, 4, 0] = (List.range (2 + 1)).map (fun p => (17 % 7 + p * p) % 7) := by
  exact C3_theorem [10, 3, 17] 7
    (StepRec.probe 17 3 none [3, 4, 0] 0 2 (qpHint 17 7 3 2)) (by decide)
    17 3 none [3, 4, 0] 0 2 (qpHint 17 7 3 2) rfl

/-- C4: the secondary hash value stored in each double hashing record is
`1 + (key mod (table_size - 1))`, which lies in `[1, table_size - 1]` and
is never 0 (for the table sizes the resolver is used with, all ≥ 2). -/
theorem C4_theorem (keys : List Nat) (m : Nat) (hm : 2 ≤ m) (s : StepRec)
    (hs : s ∈ (build_double_hashing keys m).steps)
    (key h0 : Nat) (h2v : Option Nat) (seq : List Nat) (fin coll : Nat)
    (f : String) (hp : s = StepRec.probe key h0 h2v seq fin coll f) :
    h2v = some (1 + key % (m - 1)) ∧
    ∀ v, h2v = some v → 1 ≤ v ∧ v ≤ m - 1 ∧ v ≠ 0 := by
  subst hp
  obtain ⟨t', k, _, hs'⟩ := runInserts_step_mem (dhInsert m) keys
    (List.replicate m none) _ hs
  obtain ⟨hk, _, hhv, _, _, _, _, _, _⟩ :=
    probeInsert_probe_inv m (fun i => i * (1 + k % (m - 1)))
      (some (1 + k % (m - 1))) ("Table full")
      (fun h0 i => dhHint k m (1 + k % (m - 1)) h0 i)
      t' k key h0 h2v seq fin coll f hs'.symm
  subst hk
  refine ⟨hhv, ?_⟩
  intro v hv
  rw [hhv] at hv
  have hv' : v = 1 + key % (m - 1) := (Option.some.inj hv).symm
  have hlt : key % (m - 1) < m - 1 := Nat.mod_lt _ (by omega)
  omega

theorem C4_witness :
    (some 5 : Option Nat) = some (1 + 10 % (7 - 1)) ∧
    1 ≤ 5 ∧ 5 ≤ 7 - 1 ∧ (5 : Nat) ≠ 0 := by
  have h := C4_theorem [10, 17] 7 (by decide)
    (StepRec.probe 10 3 (some 5) [3] 3 0 (dhHint 10 7 5 3 0)) (by decide)
    10 3 (some 5) [3] 3 0 (dhHint 10 7 5 3 0) rfl
  exact ⟨h.1, h.2 5 rfl⟩

/-- C5: the chaining resolver appends each key to the end of bucket
`key mod table_size` (each bucket lists, in insertion order, exactly the
keys hashing to it), never emits an error record, produces one record per
key, and the bucket lengths sum to the number of keys; on the concrete
input `[10, 17, 24, 5]` with table size 7, bucket 3 is `[10, 17, 24]`,
bucket 5 is `[5]` and all others are empty. -/
theorem C5_theorem :
    (∀ keys m, 0 < m →
      ∃ B, (build_chaining keys m).solution = Solution.buckets B ∧
        B.length = m ∧
        (∀ i, i < m → B.getD i [] = keys.filter (fun k => k % m == i)) ∧
        ((B.map List.length).sum) = keys.length ∧
        (∀ s, s ∈ (build_chaining keys m).steps → s.isErr = false) ∧
        ((build_chaining keys m).steps).length = keys.length) ∧
    (build_chaining [10, 17, 24, 5] 7).solution =
      Solution.buckets [[], [], [], [10, 17, 24], [], [5], []] := by
  constructor
  · intro keys m hm
    have hlen : (List.replicate m ([] : List Nat)).length = m := by simp
    refine ⟨(runChain m (List.replicate m []) keys).1, rfl, ?_, ?_, ?_, ?_, ?_⟩
    · rw [runChain_table_length]; exact hlen
    · intro i hi
      have h := runChain_bucket m keys (List.replicate m []) i hlen hi
      rw [h, getD_replicate]
      simp
    · have h := runChain_sum m hm keys (List.replicate m []) hlen
      rw [h]
      have : ((List.replicate m ([] : List Nat)).map List.length).sum = 0 := by
        simp [List.map_replicate]
      omega
    · intro s hs
      exact runChain_no_err m keys (List.replicate m []) s hs
    · exact runChain_steps_length m keys (List.replicate m [])
  · decide

theorem C5_witness :
    (build_chaining [10, 17, 24, 5] 7).solution =
      Solution.buckets [[], [], [], [10, 17, 24], [], [5], []] ∧
    ([[], [], [], [10, 17, 24], [], [5], []] : List (List Nat)).getD 3 [] =
      [10, 17, 24, 5].filter (fun k => k % 7 == 3) ∧
    (([[], [], [], [10, 17, 24], [], [5], []] : List (List Nat)).map
      List.length).sum = [10, 17, 24, 5].length := by
  obtain ⟨B, h1, h2, h3, h4, h5, h6⟩ := C5_theorem.1 [10, 17, 24, 5] 7 (by decide)
  have hB : B = [[], [], [], [10, 17, 24], [], [5], []] := by
    have h7 := h1.symm.trans
      (by decide : (build_chaining [10, 17, 24, 5] 7).solution =
        Solution.buckets [[], [], [], [10, 17, 24], [], [5], []])
    exact Solution.buckets.inj h7
  subst hB
  exact ⟨h1, h3 3 (by decide), h4⟩

theorem configFor_max_val (d : String) (cfg : Config)
    (h : configFor d = some cfg) : 1 ≤ cfg.max_val := by
  unfold configFor at h
  split_ifs at h
  all_goals cases h
  all_goals decide

theorem generate_collision_keys_inv (table_size num_keys max_val : Nat)
    (d : String) (g : Nat → Nat) (shuffle : List Nat → List Nat)
    (hsh : ∀ l, (shuffle l).Perm l) (hmv : 1 ≤ max_val) (keys : List Nat)
    (h : _generate_collision_keys table_size num_keys max_val d g shuffle =
      some keys) :
    keys.length ≤ num_keys ∧ KeysInv max_val keys := by
  unfold _generate_collision_keys at h
  cases hc1 : clustersFor d with
  | none => rw [hc1] at h; simp at h
  | some n =>
    cases hc2 : clusterSizeFor d with
    | none => rw [hc1, hc2] at h; simp at h
    | some sz =>
      rw [hc1, hc2] at h
      injection h with h
      subst h
      constructor
      · rw [List.length_take]; exact Nat.min_le_left _ _
      · apply keysInv_take
        apply keysInv_perm max_val _ _ (hsh _)
        apply fillLoopAux_inv num_keys max_val g hmv
        apply clusterLoop_inv
        exact ⟨List.nodup_nil, by simp⟩

theorem generate_quadratic_keys_inv (table_size num_keys max_val : Nat)
    (d : String) (g : Nat → Nat) (shuffle : List Nat → List Nat)
    (hsh : ∀ l, (shuffle l).Perm l) (hmv : 1 ≤ max_val) (keys : List Nat)
    (h : _generate_quadratic_keys table_size num_keys max_val d g shuffle =
      some keys) :
    keys.length ≤ num_keys ∧ KeysInv max_val keys := by
  unfold _generate_quadratic_keys at h
  cases hc1 : qclusterConfigsFor d with
  | none => rw [hc1] at h; simp at h
  | some cfgs =>
    rw [hc1] at h
    injection h with h
    subst h
    constructor
    · rw [List.length_take]; exact Nat.min_le_left _ _
    · apply keysInv_take
      apply keysInv_perm max_val _ _ (hsh _)
      apply fillLoopAux_inv num_keys max_val g hmv
      apply qclusterLoop_inv
      exact ⟨List.nodup_nil, by simp⟩

theorem generate_puzzle_keys (technique difficulty : String) (g : Nat → Nat)
    (shuffle : List Nat → List Nat) (r : PuzzleResult) (cfg : Config)
    (hcfg : configFor difficulty = some cfg)
    (hr : generate_puzzle technique difficulty g shuffle = some r) :
    ∃ keys,
      (_generate_quadratic_keys cfg.table_size cfg.num_keys cfg.max_val
          difficulty g shuffle = some keys ∨
        _generate_collision_keys cfg.table_size cfg.num_keys cfg.max_val
          difficulty g shuffle = some keys) ∧
      r.keys = keys := by
  unfold generate_puzzle at hr
  simp only [hcfg] at hr
  by_cases ht : technique = "quadratic_probing"
  · rw [if_pos ht] at hr
    cases hkeys : _generate_quadratic_keys cfg.table_size cfg.num_keys
        cfg.max_val difficulty g shuffle with
    | none => rw [hkeys] at hr; simp at hr
    | some keys =>
      rw [hkeys] at hr
      refine ⟨keys, Or.inl rfl, ?_⟩
      split_ifs at hr <;> (injection hr with hr; subst hr; rfl)
  · rw [if_neg ht] at hr
    cases hkeys : _generate_collision_keys cfg.table_size cfg.num_keys
        cfg.max_val difficulty g shuffle with
    | none => rw [hkeys] at hr; simp at hr
    | some keys =>
      rw [hkeys] at hr
      refine ⟨keys, Or.inr rfl, ?_⟩
      split_ifs at hr <;> (injection hr with hr; subst hr; rfl)

/-- C6: for every difficulty with a profile, every technique, every draw
stream and every shuffle (any permutation), the key sequence embedded in
the generated puzzle has length at most the configured `num_keys`, is
pairwise distinct, and lies within `[1, max_key_value]`. -/
theorem C6_theorem (technique difficulty : String) (g : Nat → Nat)
    (shuffle : List Nat → List Nat) (hsh : ∀ l, (shuffle l).Perm l)
    (r : PuzzleResult) (cfg : Config)
    (hcfg : configFor difficulty = some cfg)
    (hr : generate_puzzle technique difficulty g shuffle = some r) :
    r.keys.length ≤ cfg.num_keys ∧ r.keys.Nodup ∧
    ∀ v, v ∈ r.keys → 1 ≤ v ∧ v ≤ cfg.max_val := by
  have hmv : 1 ≤ cfg.max_val := configFor_max_val difficulty cfg hcfg
  obtain ⟨keys, hkeys, hrk⟩ :=
    generate_puzzle_keys technique difficulty g shuffle r cfg hcfg hr
  subst hrk
  rcases hkeys with hkeys | hkeys
  · obtain ⟨h1, h2, h3⟩ := generate_quadratic_keys_inv cfg.table_size
      cfg.num_keys cfg.max_val difficulty g shuffle hsh hmv r.keys hkeys
    exact ⟨h1, h2, h3⟩
  · obtain ⟨h1, h2, h3⟩ := generate_collision_keys_inv cfg.table_size
      cfg.num_keys cfg.max_val difficulty g shuffle hsh hmv r.keys hkeys
    exact ⟨h1, h2, h3⟩

set_option maxRecDepth 100000 in
theorem C6_witness :
    ((build_linear_probing [3, 10, 4] 7).keys).length ≤ 4 ∧
    ((build_linear_probing [3, 10, 4] 7).keys).Nodup ∧
    1 ≤ 10 ∧ 10 ≤ 99 := by
  have h := C6_theorem ("linear_probing") ("easy") (fun _ => 3) (fun l => l)
    (fun l => List.Perm.refl l) (build_linear_probing [3, 10, 4] 7)
    ⟨7, 4, 99⟩ (by decide) (by decide)
  exact ⟨h.1, h.2.1, h.2.2 10 (by decide)⟩

theorem generate_collision_keys_total (table_size num_keys max_val : Nat)
    (g : Nat → Nat) (sh : List Nat → List Nat) (d : String)
    (hd : d = "easy" ∨ d = "medium" ∨ d = "hard") :
    ∃ keys, _generate_collision_keys table_size num_keys max_val d g sh =
      some keys := by
  rcases hd with h | h | h <;> subst h <;> exact ⟨_, rfl⟩

theorem generate_puzzle_fallback (tech : String) (g : Nat → Nat)
    (sh : List Nat → List Nat) (d : String) (cfg : Config)
    (hc : configFor d = some cfg)
    (h1 : tech ≠ "linear_probing") (h2 : tech ≠ "quadratic_probing")
    (h3 : tech ≠ "double_hashing") (h4 : tech ≠ "chaining")
    (keys : List Nat)
    (hkeys : _generate_collision_keys cfg.table_size cfg.num_keys cfg.max_val
      d g sh = some keys) :
    generate_puzzle tech d g sh =
      some (build_linear_probing keys cfg.table_size) := by
  unfold generate_puzzle
  simp only [hc, if_neg h2, hkeys, if_neg h1, if_neg h3, if_neg h4]

/-- C7: `generate_puzzle` fails (dict lookup error, modelled as `none`) on
every difficulty outside the three profiles, while an unrecognized
technique is not an error: with a valid difficulty it returns the linear
probing result built from the collision-biased synthesizer's keys. -/
theorem C7_theorem :
    (∀ technique difficulty : String, ∀ g : Nat → Nat,
      ∀ shuffle : List Nat → List Nat,
      difficulty ≠ "easy" → difficulty ≠ "medium" → difficulty ≠ "hard" →
      generate_puzzle technique difficulty g shuffle = none) ∧
    (∀ technique difficulty : String, ∀ g : Nat → Nat,
      ∀ shuffle : List Nat → List Nat,
      technique ≠ "linear_probing" → technique ≠ "quadratic_probing" →
      technique ≠ "double_hashing" → technique ≠ "chaining" →
      (difficulty = "easy" ∨ difficulty = "medium" ∨ difficulty = "hard") →
      ∃ cfg keys, configFor difficulty = some cfg ∧
        _generate_collision_keys cfg.table_size cfg.num_keys cfg.max_val
          difficulty g shuffle = some keys ∧
        generate_puzzle technique difficulty g shuffle =
          some (build_linear_probing keys cfg.table_size)) := by
  constructor
  · intro tech d g sh h1 h2 h3
    have hc : configFor d = none := by
      unfold configFor
      rw [if_neg h1, if_neg h2, if_neg h3]
    unfold generate_puzzle
    rw [hc]
  · intro tech d g sh h1 h2 h3 h4 hd
    have hcfg : ∃ cfg, configFor d = some cfg := by
      rcases hd with h | h | h <;> subst h <;> exact ⟨_, rfl⟩
    obtain ⟨cfg, hc⟩ := hcfg
    obtain ⟨keys, hkeys⟩ := generate_collision_keys_total cfg.table_size
      cfg.num_keys cfg.max_val g sh d hd
    exact ⟨cfg, keys, hc, hkeys,
      generate_puzzle_fallback tech g sh d cfg hc h1 h2 h3 h4 keys hkeys⟩

set_option maxRecDepth 100000 in
theorem C7_witness :
    generate_puzzle ("linear_probing") ("impossible") (fun _ => 0)
      (fun l => l) = none ∧
    generate_puzzle ("bogus") ("easy") (fun _ => 3) (fun l => l) =
      some (build_linear_probing [3, 10, 4] 7) := by
  constructor
  · exact C7_theorem.1 ("linear_probing") ("impossible") (fun _ => 0)
      (fun l => l) (by decide) (by decide) (by decide)
  · obtain ⟨cfg, keys, hc, hkeys, hgp⟩ := C7_theorem.2 ("bogus") ("easy")
      (fun _ => 3) (fun l => l) (by decide) (by decide) (by decide) (by decide)
      (Or.inl rfl)
    have hcfg : cfg = ⟨7, 4, 99⟩ := by
      have h := hc.symm.trans (by decide : configFor ("easy") = some ⟨7, 4, 99⟩)
      exact Option.some.inj h
    subst hcfg
    have hk : keys = [3, 10, 4] := by
      have h := hkeys.symm.trans
        (by decide : _generate_collision_keys 7 4 99 ("easy") (fun _ => 3)
          (fun l => l) = some [3, 10, 4])
      exact Option.some.inj h
    subst hk
    exact hgp

/-- C8 (amended: the quadratic probing error marker is the full string
`"No slot found (quadratic probing exhausted)"`): when an array-based
resolver exhausts its `table_size` probe attempts for a key, it emits an
error Step Record — `"Table full"` for linear probing and double hashing,
`"No slot found (quadratic probing exhausted)"` for quadratic probing —
the key is not inserted (the replayed table is unchanged), and resolution
continues with the subsequent keys (one record per key). -/
theorem C8_theorem (keys : List Nat) (m i k : Nat)
    (hk : keys.get? i = some k) :
    (probeFind m (replayFrom (lpInsert m) (List.replicate m none) keys i)
        (fun q => q) (k % m) = none →
      ((build_linear_probing keys m).steps).get? i =
        some (StepRec.err k ("Table full")) ∧
      replayFrom (lpInsert m) (List.replicate m none) keys (i + 1) =
        replayFrom (lpInsert m) (List.replicate m none) keys i) ∧
    (probeFind m (replayFrom (qpInsert m) (List.replicate m none) keys i)
        (fun q => q * q) (k % m) = none →
      ((build_quadratic_probing keys m).steps).get? i =
        some (StepRec.err k ("No slot found (quadratic probing exhausted)")) ∧
      replayFrom (qpInsert m) (List.replicate m none) keys (i + 1) =
        replayFrom (qpInsert m) (List.replicate m none) keys i) ∧
    (probeFind m (replayFrom (dhInsert m) (List.replicate m none) keys i)
        (fun q => q * (1 + k % (m - 1))) (k % m) = none →
      ((build_double_hashing keys m).steps).get? i =
        some (StepRec.err k ("Table full")) ∧
      replayFrom (dhInsert m) (List.replicate m none) keys (i + 1) =
        replayFrom (dhInsert m) (List.replicate m none) keys i) ∧
    ((build_linear_probing keys m).steps).length = keys.length ∧
    ((build_quadratic_probing keys m).steps).length = keys.length ∧
    ((build_double_hashing keys m).steps).length = keys.length := by
  refine ⟨?_, ?_, ?_, ?_, ?_, ?_⟩
  · intro hpf
    have hins := probeInsert_err_of_find_none m (fun q => q) none
      ("Table full") (fun h0 p => lpHint k m h0 p)
      (replayFrom (lpInsert m) (List.replicate m none) keys i) k hpf
    constructor
    · have hget := runInserts_get?_step (lpInsert m) keys
        (List.replicate m none) i
      rw [hk] at hget
      have h2 : (lpInsert m (replayFrom (lpInsert m) (List.replicate m none)
          keys i) k).2 = StepRec.err k ("Table full") := by
        show (probeInsert m (fun q => q) none ("Table full")
          (fun h0 p => lpHint k m h0 p) _ k).2 = _
        rw [hins]
      rw [Option.map_some'] at hget
      show ((runInserts (lpInsert m) (List.replicate m none) keys).2).get? i =
        some (StepRec.err k ("Table full"))
      rw [hget, h2]
    · rw [replayFrom_succ (lpInsert m) keys (List.replicate m none) i k hk]
      show (probeInsert m (fun q => q) none ("Table full")
        (fun h0 p => lpHint k m h0 p) _ k).1 = _
      rw [hins]
  · intro hpf
    have hins := probeInsert_err_of_find_none m (fun q => q * q) none
      ("No slot found (quadratic probing exhausted)")
      (fun h0 p => qpHint k m h0 p)
      (replayFrom (qpInsert m) (List.replicate m none) keys i) k hpf
    constructor
    · have hget := runInserts_get?_step (qpInsert m) keys
        (List.replicate m none) i
      rw [hk] at hget
      have h2 : (qpInsert m (replayFrom (qpInsert m) (List.replicate m none)
          keys i) k).2 =
          StepRec.err k ("No slot found (quadratic probing exhausted)") := by
        show (probeInsert m (fun q => q * q) none
          ("No slot found (quadratic probing exhausted)")
          (fun h0 p => qpHint k m h0 p) _ k).2 = _
        rw [hins]
      rw [Option.map_some'] at hget
      show ((runInserts (qpInsert m) (List.replicate m none) keys).2).get? i =
        some (StepRec.err k ("No slot found (quadratic probing exhausted)"))
      rw [hget, h2]
    · rw [replayFrom_succ (qpInsert m) keys (List.replicate m none) i k hk]
      show (probeInsert m (fun q => q * q) none
        ("No slot found (quadratic probing exhausted)")
        (fun h0 p => qpHint k m h0 p) _ k).1 = _
      rw [hins]
  · intro hpf
    have hins := probeInsert_err_of_find_none m
      (fun q => q * (1 + k % (m - 1))) (some (1 + k % (m - 1)))
      ("Table full") (fun h0 p => dhHint k m (1 + k % (m - 1)) h0 p)
      (replayFrom (dhInsert m) (List.replicate m none) keys i) k hpf
    constructor
    · have hget := runInserts_get?_step (dhInsert m) keys
        (List.replicate m none) i
      rw [hk] at hget
      have h2 : (dhInsert m (replayFrom (dhInsert m) (List.replicate m none)
          keys i) k).2 = StepRec.err k ("Table full") := by
        show (probeInsert m (fun q => q * (1 + k % (m - 1)))
          (some (1 + k % (m - 1))) ("Table full")
          (fun h0 p => dhHint k m (1 + k % (m - 1)) h0 p) _ k).2 = _
        rw [hins]
      rw [Option.map_some'] at hget
      show ((runInserts (dhInsert m) (List.replicate m none) keys).2).get? i =
        some (StepRec.err k ("Table full"))
      rw [hget, h2]
    · rw [replayFrom_succ (dhInsert m) keys (List.replicate m none) i k hk]
      show (probeInsert m (fun q => q * (1 + k % (m - 1)))
        (some (1 + k % (m - 1))) ("Table full")
        (fun h0 p => dhHint k m (1 + k % (m - 1)) h0 p) _ k).1 = _
      rw [hins]
  · exact runInserts_steps_length (lpInsert m) keys (List.replicate m none)
  · exact runInserts_steps_length (qpInsert m) keys (List.replicate m none)
  · exact runInserts_steps_length (dhInsert m) keys (List.replicate m none)

/-- C8 counterexample: the quadratic probing resolver's exhaustion marker
is not the string `"No slot found"`: on input `[4, 1, 8]` with table
size 4, key 8 exhausts its probes and the emitted marker is the longer
string `"No slot found (quadratic probing exhausted)"`. -/
theorem C8_counterexample :
    ((build_quadratic_probing [4, 1, 8] 4).steps).get? 2 =
      some (StepRec.err 8 ("No slot found (quadratic probing exhausted)")) ∧
    ¬ (((build_quadratic_probing [4, 1, 8] 4).steps).get? 2 =
      some (StepRec.err 8 ("No slot found"))) := by
  exact ⟨by decide, by decide⟩

theorem C8_witness :
    ((build_quadratic_probing [4, 1, 8] 4).steps).get? 2 =
      some (StepRec.err 8 ("No slot found (quadratic probing exhausted)")) ∧
    replayFrom (qpInsert 4) (List.replicate 4 none) [4, 1, 8] 3 =
      replayFrom (qpInsert 4) (List.replicate 4 none) [4, 1, 8] 2 ∧
    ((build_quadratic_probing [4, 1, 8] 4).steps).length = 3 := by
  have h := C8_theorem [4, 1, 8] 4 2 8 (by decide)
  have h2 := h.2.1 (by decide)
  refine ⟨h2.1, h2.2, ?_⟩
  rw [h.2.2.2.2.1]
  decide

/-- C9: bounded work — every non-error record of the three array-based
resolvers has a probe sequence of length at most `table_size` (at most
`table_size` slots examined per key, `collisions < table_size`), and the
synthesizers' fill phase returns with its attempts counter at most 1000. -/
theorem C9_theorem :
    (∀ keys m s,
      (s ∈ (build_linear_probing keys m).steps ∨
        s ∈ (build_quadratic_probing keys m).steps ∨
        s ∈ (build_double_hashing keys m).steps) →
      ∀ key h0 h2v seq fin coll f,
        s = StepRec.probe key h0 h2v seq fin coll f →
        seq.length ≤ m ∧ coll < m) ∧
    (∀ num_keys max_val : Nat, ∀ g : Nat → Nat, ∀ keys c,
      (fillLoop num_keys max_val g keys c).2 ≤ 1000) := by
  constructor
  · intro keys m s hs key h0 h2v seq fin coll f hp
    subst hp
    rcases hs with hs | hs | hs
    · obtain ⟨t', k, _, hs'⟩ := runInserts_step_mem (lpInsert m) keys
        (List.replicate m none) _ hs
      obtain ⟨_, _, _, hcoll, _, _, _, hseq, _⟩ :=
        probeInsert_probe_inv m (fun i => i) none ("Table full")
          (fun h0 p => lpHint k m h0 p) t' k key h0 h2v seq fin coll f hs'.symm
      constructor
      · rw [hseq]; simp; omega
      · exact hcoll
    · obtain ⟨t', k, _, hs'⟩ := runInserts_step_mem (qpInsert m) keys
        (List.replicate m none) _ hs
      obtain ⟨_, _, _, hcoll, _, _, _, hseq, _⟩ :=
        probeInsert_probe_inv m (fun i => i * i) none
          ("No slot found (quadratic probing exhausted)")
          (fun h0 p => qpHint k m h0 p) t' k key h0 h2v seq fin coll f hs'.symm
      constructor
      · rw [hseq]; simp; omega
      · exact hcoll
    · obtain ⟨t', k, _, hs'⟩ := runInserts_step_mem (dhInsert m) keys
        (List.replicate m none) _ hs
      obtain ⟨_, _, _, hcoll, _, _, _, hseq, _⟩ :=
        probeInsert_probe_inv m (fun i => i * (1 + k % (m - 1)))
          (some (1 + k % (m - 1))) ("Table full")
          (fun h0 p => dhHint k m (1 + k % (m - 1)) h0 p)
          t' k key h0 h2v seq fin coll f hs'.symm
      constructor
      · rw [hseq]; simp; omega
      · exact hcoll
  · intro num_keys max_val g keys c
    have h := fillLoopAux_attempts_le num_keys max_val g 1000 keys c 0
    simpa [fillLoop] using h

theorem C9_witness :
    ([3, 4] : List Nat).length ≤ 7 ∧ 1 < 7 ∧
    (fillLoop 4 99 (fun _ => 3) [] 0).2 ≤ 1000 := by
  have h1 := C9_theorem.1 [10, 17, 24] 7
    (StepRec.probe 17 3 none [3, 4] 4 1 (lpHint 17 7 3 1))
    (Or.inl (by decide)) 17 3 none [3, 4] 4 1 (lpHint 17 7 3 1) rfl
  exact ⟨h1.1, h1.2, C9_theorem.2 4 99 (fun _ => 3) [] 0⟩

theorem replayFrom_length (m : Nat)
    (ins : List (Option Nat) → Nat → List (Option Nat) × StepRec)
    (hA : InsTableSpec m ins) (keys : List Nat) (i : Nat) :
    (replayFrom ins (List.replicate m none) keys i).length = m :=
  runInserts_table_length m ins hA (keys.take i) (List.replicate m none)
    (by simp)

theorem replayFrom_occ_le (m : Nat)
    (ins : List (Option Nat) → Nat → List (Option Nat) × StepRec)
    (hA : InsTableSpec m ins) (keys : List Nat) (i : Nat) :
    occ (replayFrom ins (List.replicate m none) keys i) ≤ i := by
  have h := occ_run_le m ins hA (keys.take i) (List.replicate m none) (by simp)
  have h2 : (keys.take i).length ≤ i := by
    rw [List.length_take]; exact Nat.min_le_left _ _
  rw [occ_replicate] at h
  calc occ (replayFrom ins (List.replicate m none) keys i) ≤
      0 + (keys.take i).length := h
    _ ≤ i := by omega

/-- C10: with pairwise distinct keys and at most `table_size` of them, the
linear probing resolver never emits an error Step Record (linear offsets
cover every slot and fewer keys than slots are inserted); moreover every
shipped difficulty profile satisfies `num_keys ≤ table_size`. -/
theorem C10_theorem :
    (∀ keys m, keys.Nodup → keys.length ≤ m →
      ∀ s, s ∈ (build_linear_probing keys m).steps → s.isErr = false) ∧
    (∀ d cfg, configFor d = some cfg → cfg.num_keys ≤ cfg.table_size) := by
  constructor
  · intro keys m _ hlen s hs
    obtain ⟨i, hi⟩ := List.get?_of_mem hs
    have hget := runInserts_get?_step (lpInsert m) keys
      (List.replicate m none) i
    have hi' : ((runInserts (lpInsert m) (List.replicate m none) keys).2).get? i =
        some s := hi
    rw [hi'] at hget
    cases hk : keys.get? i with
    | none => rw [hk] at hget; simp at hget
    | some k =>
      rw [hk, Option.map_some'] at hget
      have hil : i < keys.length := by
        have := List.get?_eq_some.mp hk
        exact this.1
      have hm : 0 < m := by omega
      have hs' : s = (lpInsert m (replayFrom (lpInsert m)
          (List.replicate m none) keys i) k).2 := Option.some.inj hget
      cases s with
      | probe key h0 h2v seq fin coll f => rfl
      | chain key h0 fin cl f => rfl
      | err key e =>
        exfalso
        obtain ⟨_, _, _, hpf, hfull⟩ :=
          probeInsert_err_inv m (fun q => q) none ("Table full")
            (fun h0 p => lpHint k m h0 p)
            (replayFrom (lpInsert m) (List.replicate m none) keys i) k
            key e hs'.symm
        set T := replayFrom (lpInsert m) (List.replicate m none) keys i with hT
        have hTlen : T.length = m := replayFrom_length m (lpInsert m)
          (lpInsert_tableSpec m) keys i
        have hall : ∀ idx, idx < T.length → tget T idx ≠ none := by
          intro idx hidx
          obtain ⟨q, hq, hqe⟩ := linear_offsets_cover m (k % m) idx hm
            (by rw [← hTlen]; exact hidx)
          have := hfull q hq
          rw [hqe] at this
          exact this
        have hocc : occ T = m := by
          rw [occ_eq_length_of_full T hall, hTlen]
        have hocc2 : occ T ≤ i := replayFrom_occ_le m (lpInsert m)
          (lpInsert_tableSpec m) keys i
        omega
  · intro d cfg h
    unfold configFor at h
    split_ifs at h
    all_goals cases h
    all_goals decide

theorem C10_witness :
    (StepRec.probe 10 3 none [3] 3 0 (lpHint 10 7 3 0)).isErr = false ∧
    (4 : Nat) ≤ 7 := by
  constructor
  · exact C10_theorem.1 [10, 17, 24] 7 (by decide) (by decide)
      (StepRec.probe 10 3 none [3] 3 0 (lpHint 10 7 3 0)) (by decide)
  · exact C10_theorem.2 ("easy") ⟨7, 4, 99⟩ (by decide)
